import Mathlib

/-!
Verification of the seller-apis reconciliation core: a shallow embedding of
the pure logic of `src/seller.py` and `src/market.py` (quantity and price
normalization, batching, stock/price reconciliation, and the orchestration
order of the two `main` functions), with theorems about that embedding.

Conventions of the embedding:
* a vendor row (`watch_remnants` entry) is modelled by its three fields in
  stringified form, since the Python code only uses `str(watch.get("Код"))`,
  `str(watch.get("Количество"))` / `int(...)` and the price string;
* Python exceptions (`ValueError` from `int(...)`, from `range(..., 0)`) are
  modelled by `Option`/`none`;
* the destructive mutation of the caller's `offer_ids` list is modelled by
  returning the remaining list alongside the produced updates.
-/

namespace SellerApis

/-- One row of the vendor inventory spreadsheet (a `watch_remnants` entry):
`kod` is the stringified product code (`str(watch.get("Код"))`),
`kolichestvo` the raw quantity token in string form, `tsena` the raw price
string. -/
structure Watch where
  kod : String
  kolichestvo : String
  tsena : String
  deriving DecidableEq, Repr

/-- Python whitespace accepted by `int(...)` around the number (ASCII part). -/
def isPySpace (c : Char) : Bool :=
  c = ' ' || c = '\t' || c = '\n' || c = '\x0d' || c = '\x0b' || c = '\x0c'

/-- Strip leading and trailing whitespace, as Python `int` does on a string. -/
def pyStrip (l : List Char) : List Char :=
  ((l.dropWhile isPySpace).reverse.dropWhile isPySpace).reverse

/-- Accumulate decimal digits, allowing a single underscore between digits as
Python integer literals do. -/
def digitsCore (acc : Nat) : List Char → Option Nat
  | [] => some acc
  | c :: rest =>
    if c.isDigit then digitsCore (acc * 10 + (c.toNat - 48)) rest
    else if c = '_' then
      match rest with
      | d :: rest2 =>
        if d.isDigit then digitsCore (acc * 10 + (d.toNat - 48)) rest2 else none
      | [] => none
    else none

/-- Parse a nonempty digit sequence (with optional interior underscores). -/
def parseDigits : List Char → Option Nat
  | [] => none
  | c :: rest =>
    if c.isDigit then digitsCore (c.toNat - 48) rest else none

/-- Model of Python `int(s)` on a string: strip whitespace, optional sign,
then decimal digits; any other shape raises `ValueError`, modelled `none`. -/
def pyIntParse (s : String) : Option Int :=
  match pyStrip s.toList with
  | '+' :: rest => (parseDigits rest).map (fun n => (n : Int))
  | '-' :: rest => (parseDigits rest).map (fun n => -(n : Int))
  | l => (parseDigits l).map (fun n => (n : Int))

/-- Quantity normalization, from the body of `create_stocks`
(`src/seller.py` lines 226-233 and identically `src/market.py` lines
244-251): the string form ">10" maps to 100, "1" maps to 0, anything else is
parsed with Python `int`, whose `ValueError` is `none`. -/
def normalizeQuantity (s : String) : Option Int :=
  if s = ">10" then some 100
  else if s = "1" then some 0
  else pyIntParse s

/-- Model of Python `s.split(".")` on the character list: the list of
maximal groups between occurrences of the dot (so `"".split(".") = [""]`). -/
def splitDot : List Char → List (List Char)
  | [] => [[]]
  | c :: rest =>
    if c = '.' then [] :: splitDot rest
    else
      match splitDot rest with
      | [] => [[c]]
      | g :: gs => (c :: g) :: gs

/-- `price_conversion` from `src/seller.py` lines 278-294:
`re.sub("[^0-9]", "", price.split(".")[0])` — take the part before the first
dot and keep only the ASCII digits. -/
def price_conversion (price : String) : String :=
  String.mk (((splitDot price.toList).headD []).filter Char.isDigit)

/-- Price normalization as worded by the spec (§4.2): split on the first
decimal-point character, keep the integer-part substring, remove every
non-digit character from it. Stated separately from `price_conversion` so
the code can be proved to refine the spec's wording. -/
def specPriceNormalize (s : String) : String :=
  String.mk ((s.toList.takeWhile (fun c => c ≠ '.')).filter Char.isDigit)

/-- The chunking performed by `divide`'s loop
`for i in range(0, len(lst), n): yield lst[i:i+n]` for a positive step `n`
(the only way the repository calls it): successive slices of length `n`. -/
def chunksBy (n : Nat) : List α → List (List α)
  | [] => []
  | x :: xs => (x :: xs.take (n - 1)) :: chunksBy n (xs.drop (n - 1))
  termination_by l => l.length
  decreasing_by simp only [List.length_cons, List.length_drop]; omega

/-- `divide` from `src/seller.py` lines 297-314. A step of `0` makes
`range` raise `ValueError` (modelled `none`); a negative step makes
`range(0, len(lst), n)` empty, so the generator yields nothing. -/
def divide (lst : List α) (n : Int) : Option (List (List α)) :=
  if n = 0 then none
  else if n < 0 then some []
  else some (chunksBy n.toNat lst)

/-- A stock update as built by `src/seller.py` `create_stocks`:
`{"offer_id": ..., "stock": ...}`. -/
structure Stock where
  offer_id : String
  stock : Int
  deriving DecidableEq, Repr

/-- The matching loop of `create_stocks` (`src/seller.py` lines 224-235):
walk the vendor rows; a row whose code is in the working offer-id list emits
an update with the normalized quantity and removes that id (Python
`list.remove` = `List.erase`, first occurrence). A `ValueError` from
`int(...)` aborts the whole call (`none`). Returns the matched updates and
the remaining offer ids. -/
def create_stocks_loop (ws : List Watch) (ids : List String) :
    Option (List Stock × List String) :=
  match ws with
  | [] => some ([], ids)
  | w :: rest =>
    if w.kod ∈ ids then
      match normalizeQuantity w.kolichestvo with
      | none => none
      | some q =>
        match create_stocks_loop rest (ids.erase w.kod) with
        | none => none
        | some (ss, rem) => some (⟨w.kod, q⟩ :: ss, rem)
    else create_stocks_loop rest ids

/-- `create_stocks` from `src/seller.py` lines 206-239: the matching loop,
then a fallback `{"offer_id": id, "stock": 0}` for every remaining id. The
second component is the remaining id list, i.e. the state of the caller's
mutated `offer_ids` after the call. -/
def create_stocks (ws : List Watch) (ids : List String) :
    Option (List Stock × List String) :=
  (create_stocks_loop ws ids).map
    (fun p => (p.1 ++ p.2.map (fun i => ⟨i, 0⟩), p.2))

/-- A price update as built by `src/seller.py` `create_prices` lines
264-275; `price` is the string returned by `price_conversion`. -/
structure SellerPrice where
  auto_action_enabled : String
  currency_code : String
  offer_id : String
  old_price : String
  price : String
  deriving DecidableEq, Repr

/-- `create_prices` from `src/seller.py` lines 242-275: one update per
vendor row whose code is in the offer-id list. Note: unlike
`create_stocks`, no id is removed from `offer_ids`. -/
def create_prices (ws : List Watch) (ids : List String) : List SellerPrice :=
  match ws with
  | [] => []
  | w :: rest =>
    if w.kod ∈ ids then
      ⟨"UNKNOWN", "RUB", w.kod, "0", price_conversion w.tsena⟩ ::
        create_prices rest ids
    else create_prices rest ids

/-- One element of the `items` list of a Yandex-Market stock record
(`src/market.py` lines 256-262): `{"count": ..., "type": "FIT",
"updatedAt": date}`. -/
structure StockItem where
  count : Int
  type : String
  updatedAt : String
  deriving DecidableEq, Repr

/-- A stock record as built by `src/market.py` `create_stocks`:
`{"sku": ..., "warehouseId": ..., "items": [...]}`. -/
structure MarketStock where
  sku : String
  warehouseId : String
  items : List StockItem
  deriving DecidableEq, Repr

/-- The matching loop of `src/market.py` `create_stocks` lines 240-265:
identical matching, quantity normalization and removal-on-match as the Ozon
variant, but the emitted record carries the warehouse id and the timestamp
string `date` computed once before the loop. -/
def market_create_stocks_loop (ws : List Watch) (ids : List String)
    (warehouseId date : String) : Option (List MarketStock × List String) :=
  match ws with
  | [] => some ([], ids)
  | w :: rest =>
    if w.kod ∈ ids then
      match normalizeQuantity w.kolichestvo with
      | none => none
      | some q =>
        match market_create_stocks_loop rest (ids.erase w.kod) warehouseId date with
        | none => none
        | some (ss, rem) =>
          some (⟨w.kod, warehouseId, [⟨q, "FIT", date⟩]⟩ :: ss, rem)
    else market_create_stocks_loop rest ids warehouseId date

/-- `create_stocks` from `src/market.py` lines 209-281: matching loop, then
a zero-count fallback record for every remaining offer id. -/
def market_create_stocks (ws : List Watch) (ids : List String)
    (warehouseId date : String) : Option (List MarketStock × List String) :=
  (market_create_stocks_loop ws ids warehouseId date).map
    (fun p => (p.1 ++ p.2.map (fun i => ⟨i, warehouseId, [⟨0, "FIT", date⟩]⟩), p.2))

/-- The nested `"price"` object of a Yandex-Market price update
(`src/market.py` lines 291-296). -/
structure PriceValue where
  value : Int
  currencyId : String
  deriving DecidableEq, Repr

/-- A price update as built by `src/market.py` `create_prices`. -/
structure MarketPrice where
  id : String
  price : PriceValue
  deriving DecidableEq, Repr

/-- `create_prices` from `src/market.py` lines 284-301: one update per
vendor row whose code is in the offer-id list, with
`int(price_conversion(...))` as the value (`ValueError` modelled `none`).
As in the Ozon variant, no id is removed from `offer_ids`. -/
def market_create_prices (ws : List Watch) (ids : List String) :
    Option (List MarketPrice) :=
  match ws with
  | [] => some []
  | w :: rest =>
    if w.kod ∈ ids then
      match pyIntParse (price_conversion w.tsena) with
      | none => none
      | some v =>
        match market_create_prices rest ids with
        | none => none
        | some ps => some (⟨w.kod, ⟨v, "RUR"⟩⟩ :: ps)
    else market_create_prices rest ids

/-- Observable phases of one orchestrator run, for the temporal claims:
fetching the offer ids, running a reconciliation, issuing one batched API
call, and completing. -/
inductive Ev where
  | fetchOfferIds : Ev
  | reconcileStock : Ev
  | pushStock (batch : List Stock) : Ev
  | reconcilePrice : Ev
  | pushPrice (batch : List SellerPrice) : Ev
  | mPushStock (batch : List MarketStock) : Ev
  | mPushPrice (batch : List MarketPrice) : Ev
  | done : Ev
  deriving DecidableEq, Repr

/-- Whether an event is a price-batch push on either platform. -/
def Ev.isPushPrice : Ev → Bool
  | .pushPrice _ => true
  | .mPushPrice _ => true
  | _ => false

/-- Trace of `src/seller.py` `main` lines 374-394 on given vendor rows and
fetched offer ids: fetch, reconcile stocks, push each 100-element stock
batch, reconcile prices on the offer-id list as mutated by `create_stocks`,
push each 900-element price batch. An exception (here only the
`ValueError` from quantity parsing) aborts the run: `none`. -/
def seller_main_trace (ws : List Watch) (ids : List String) :
    Option (List Ev) :=
  match create_stocks ws ids with
  | none => none
  | some (stocks, rem) =>
    match divide stocks 100 with
    | none => none
    | some stockBatches =>
      let prices := create_prices ws rem
      match divide prices 900 with
      | none => none
      | some priceBatches =>
        some ([Ev.fetchOfferIds, Ev.reconcileStock] ++
          stockBatches.map Ev.pushStock ++
          [Ev.reconcilePrice] ++
          priceBatches.map Ev.pushPrice ++ [Ev.done])

/-- Trace of `src/market.py` `main` lines 323-355 on given vendor rows and
the offer ids fetched for the FBS and DBS campaigns: per campaign, fetch,
reconcile stocks, push each 2000-element stock batch — and then the call
`upload_prices(watch_remnants, campaign_id, market_token)` on lines 340 and
349, which is an `async def` invoked without `await`: the coroutine object
is created and discarded, its body never runs, so no price reconciliation
and no price push happens. -/
def market_main_trace (ws : List Watch) (idsFbs idsDbs : List String)
    (whFbs whDbs date : String) : Option (List Ev) :=
  match market_create_stocks ws idsFbs whFbs date with
  | none => none
  | some (stocksF, _) =>
    match divide stocksF 2000 with
    | none => none
    | some batchesF =>
      match market_create_stocks ws idsDbs whDbs date with
      | none => none
      | some (stocksD, _) =>
        match divide stocksD 2000 with
        | none => none
        | some batchesD =>
          some ([Ev.fetchOfferIds, Ev.reconcileStock] ++
            batchesF.map Ev.mPushStock ++
            [Ev.fetchOfferIds, Ev.reconcileStock] ++
            batchesD.map Ev.mPushStock ++ [Ev.done])

/-! ## Invariants of the matching loops -/

/-- Invariant of the `create_stocks` matching loop on a duplicate-free
working list: matched ids and remaining ids together are a permutation of
the input ids, every matched update is justified by a vendor row, and a
remaining id has no vendor row with its code. -/
theorem create_stocks_loop_spec (ws : List Watch) :
    ∀ (ids : List String), ids.Nodup →
    ∀ ss rem, create_stocks_loop ws ids = some (ss, rem) →
      ((ss.map Stock.offer_id) ++ rem).Perm ids ∧
      (∀ s ∈ ss, ∃ w ∈ ws, w.kod = s.offer_id ∧
          normalizeQuantity w.kolichestvo = some s.stock) ∧
      (∀ i ∈ rem, ∀ w ∈ ws, w.kod ≠ i) := by
  induction ws with
  | nil =>
    intro ids hnd ss rem h
    simp only [create_stocks_loop, Option.some.injEq, Prod.mk.injEq] at h
    obtain ⟨rfl, rfl⟩ := h
    exact ⟨by simp, by simp, by simp⟩
  | cons w rest ih =>
    intro ids hnd ss rem h
    simp only [create_stocks_loop] at h
    by_cases hmem : w.kod ∈ ids
    · rw [if_pos hmem] at h
      cases hq : normalizeQuantity w.kolichestvo with
      | none => rw [hq] at h; exact Option.noConfusion h
      | some q =>
        rw [hq] at h
        cases hrec : create_stocks_loop rest (ids.erase w.kod) with
        | none => rw [hrec] at h; exact Option.noConfusion h
        | some p =>
          obtain ⟨ss2, rem2⟩ := p
          rw [hrec] at h
          simp only [Option.some.injEq, Prod.mk.injEq] at h
          obtain ⟨rfl, rfl⟩ := h
          obtain ⟨hperm, hmatch, hrem⟩ :=
            ih (ids.erase w.kod) (hnd.erase w.kod) ss2 rem2 hrec
          refine ⟨?_, ?_, ?_⟩
          · simp only [List.map_cons, List.cons_append]
            exact (hperm.cons w.kod).trans (List.perm_cons_erase hmem).symm
          · intro s hs
            rcases List.mem_cons.mp hs with hhead | htail
            · subst hhead
              exact ⟨w, List.mem_cons_self w rest, rfl, hq⟩
            · obtain ⟨w2, hw2, h1, h2⟩ := hmatch s htail
              exact ⟨w2, List.mem_cons_of_mem w hw2, h1, h2⟩
          · intro i hi w2 hw2
            rcases List.mem_cons.mp hw2 with hhead | htail
            · subst hhead
              intro hcontra
              subst hcontra
              exact hnd.not_mem_erase
                (hperm.mem_iff.mp (List.mem_append_right _ hi))
            · exact hrem i hi w2 htail
    · rw [if_neg hmem] at h
      obtain ⟨hperm, hmatch, hrem⟩ := ih ids hnd ss rem h
      refine ⟨hperm, ?_, ?_⟩
      · intro s hs
        obtain ⟨w2, hw2, h1, h2⟩ := hmatch s hs
        exact ⟨w2, List.mem_cons_of_mem w hw2, h1, h2⟩
      · intro i hi w2 hw2
        rcases List.mem_cons.mp hw2 with hhead | htail
        · subst hhead
          intro hcontra
          subst hcontra
          exact hmem (hperm.mem_iff.mp (List.mem_append_right _ hi))
        · exact hrem i hi w2 htail

/-- Invariant of the `src/market.py` `create_stocks` matching loop,
analogous to `create_stocks_loop_spec`. -/
theorem market_create_stocks_loop_spec (ws : List Watch) (wh date : String) :
    ∀ (ids : List String), ids.Nodup →
    ∀ ss rem, market_create_stocks_loop ws ids wh date = some (ss, rem) →
      ((ss.map MarketStock.sku) ++ rem).Perm ids ∧
      (∀ s ∈ ss, ∃ w ∈ ws, w.kod = s.sku ∧
          ∃ q, normalizeQuantity w.kolichestvo = some q ∧
            s = ⟨w.kod, wh, [⟨q, "FIT", date⟩]⟩) ∧
      (∀ i ∈ rem, ∀ w ∈ ws, w.kod ≠ i) := by
  induction ws with
  | nil =>
    intro ids hnd ss rem h
    simp only [market_create_stocks_loop, Option.some.injEq, Prod.mk.injEq] at h
    obtain ⟨rfl, rfl⟩ := h
    exact ⟨by simp, by simp, by simp⟩
  | cons w rest ih =>
    intro ids hnd ss rem h
    simp only [market_create_stocks_loop] at h
    by_cases hmem : w.kod ∈ ids
    · rw [if_pos hmem] at h
      cases hq : normalizeQuantity w.kolichestvo with
      | none => rw [hq] at h; exact Option.noConfusion h
      | some q =>
        rw [hq] at h
        cases hrec : market_create_stocks_loop rest (ids.erase w.kod) wh date with
        | none => rw [hrec] at h; exact Option.noConfusion h
        | some p =>
          obtain ⟨ss2, rem2⟩ := p
          rw [hrec] at h
          simp only [Option.some.injEq, Prod.mk.injEq] at h
          obtain ⟨rfl, rfl⟩ := h
          obtain ⟨hperm, hmatch, hrem⟩ :=
            ih (ids.erase w.kod) (hnd.erase w.kod) ss2 rem2 hrec
          refine ⟨?_, ?_, ?_⟩
          · simp only [List.map_cons, List.cons_append]
            exact (hperm.cons w.kod).trans (List.perm_cons_erase hmem).symm
          · intro s hs
            rcases List.mem_cons.mp hs with hhead | htail
            · subst hhead
              exact ⟨w, List.mem_cons_self w rest, rfl, q, hq, rfl⟩
            · obtain ⟨w2, hw2, h1, h2⟩ := hmatch s htail
              exact ⟨w2, List.mem_cons_of_mem w hw2, h1, h2⟩
          · intro i hi w2 hw2
            rcases List.mem_cons.mp hw2 with hhead | htail
            · subst hhead
              intro hcontra
              subst hcontra
              exact hnd.not_mem_erase
                (hperm.mem_iff.mp (List.mem_append_right _ hi))
            · exact hrem i hi w2 htail
    · rw [if_neg hmem] at h
      obtain ⟨hperm, hmatch, hrem⟩ := ih ids hnd ss rem h
      refine ⟨hperm, ?_, ?_⟩
      · intro s hs
        obtain ⟨w2, hw2, h1, h2⟩ := hmatch s hs
        exact ⟨w2, List.mem_cons_of_mem w hw2, h1, h2⟩
      · intro i hi w2 hw2
        rcases List.mem_cons.mp hw2 with hhead | htail
        · subst hhead
          intro hcontra
          subst hcontra
          exact hmem (hperm.mem_iff.mp (List.mem_append_right _ hi))
        · exact hrem i hi w2 htail

/-- The matched updates of the `create_stocks` loop do not depend on the
order of the working offer-id list, and the remainders of two runs on
permuted lists are permutations of each other; failure is also
order-independent. -/
theorem create_stocks_loop_perm_stable (ws : List Watch) :
    ∀ ids1 ids2 : List String, ids1.Perm ids2 →
      (create_stocks_loop ws ids1 = none → create_stocks_loop ws ids2 = none) ∧
      ∀ ss rem1, create_stocks_loop ws ids1 = some (ss, rem1) →
        ∃ rem2, create_stocks_loop ws ids2 = some (ss, rem2) ∧ rem1.Perm rem2 := by
  induction ws with
  | nil =>
    intro a b hp
    constructor
    · intro h
      simp only [create_stocks_loop] at h
      exact Option.noConfusion h
    · intro ss rem1 h
      simp only [create_stocks_loop, Option.some.injEq, Prod.mk.injEq] at h
      obtain ⟨rfl, rfl⟩ := h
      exact ⟨b, rfl, hp⟩
  | cons w rest ih =>
    intro a b hp
    have hmemiff : w.kod ∈ a ↔ w.kod ∈ b := hp.mem_iff
    by_cases hmem : w.kod ∈ a
    · have hmem2 : w.kod ∈ b := hmemiff.mp hmem
      constructor
      · intro h
        simp only [create_stocks_loop, if_pos hmem] at h
        simp only [create_stocks_loop, if_pos hmem2]
        cases hq : normalizeQuantity w.kolichestvo with
        | none => simp [hq]
        | some q =>
          rw [hq] at h
          cases hrec : create_stocks_loop rest (a.erase w.kod) with
          | none =>
            have h2 := (ih (a.erase w.kod) (b.erase w.kod) (hp.erase w.kod)).1 hrec
            simp [hq, h2]
          | some p =>
            obtain ⟨ss2, rem2⟩ := p
            rw [hrec] at h
            exact Option.noConfusion h
      · intro ss rem1 h
        simp only [create_stocks_loop, if_pos hmem] at h
        cases hq : normalizeQuantity w.kolichestvo with
        | none => rw [hq] at h; exact Option.noConfusion h
        | some q =>
          rw [hq] at h
          cases hrec : create_stocks_loop rest (a.erase w.kod) with
          | none => rw [hrec] at h; exact Option.noConfusion h
          | some p =>
            obtain ⟨ss2, rem2⟩ := p
            rw [hrec] at h
            simp only [Option.some.injEq, Prod.mk.injEq] at h
            obtain ⟨rfl, rfl⟩ := h
            obtain ⟨rem3, hrec2, hp3⟩ :=
              (ih (a.erase w.kod) (b.erase w.kod) (hp.erase w.kod)).2 ss2 rem2 hrec
            refine ⟨rem3, ?_, hp3⟩
            simp only [create_stocks_loop, if_pos hmem2, hq, hrec2]
    · have hmem2 : w.kod ∉ b := fun hb => hmem (hmemiff.mpr hb)
      constructor
      · intro h
        simp only [create_stocks_loop, if_neg hmem] at h
        simp only [create_stocks_loop, if_neg hmem2]
        exact (ih a b hp).1 h
      · intro ss rem1 h
        simp only [create_stocks_loop, if_neg hmem] at h
        obtain ⟨rem2, h2, hp2⟩ := (ih a b hp).2 ss rem1 h
        refine ⟨rem2, ?_, hp2⟩
        simp only [create_stocks_loop, if_neg hmem2]
        exact h2

/-- Order-independence of the Yandex-Market `create_stocks` loop, analogous
to `create_stocks_loop_perm_stable`. -/
theorem market_create_stocks_loop_perm_stable (ws : List Watch)
    (wh date : String) :
    ∀ ids1 ids2 : List String, ids1.Perm ids2 →
      (market_create_stocks_loop ws ids1 wh date = none →
        market_create_stocks_loop ws ids2 wh date = none) ∧
      ∀ ss rem1, market_create_stocks_loop ws ids1 wh date = some (ss, rem1) →
        ∃ rem2, market_create_stocks_loop ws ids2 wh date = some (ss, rem2) ∧
          rem1.Perm rem2 := by
  induction ws with
  | nil =>
    intro a b hp
    constructor
    · intro h
      simp only [market_create_stocks_loop] at h
      exact Option.noConfusion h
    · intro ss rem1 h
      simp only [market_create_stocks_loop, Option.some.injEq, Prod.mk.injEq] at h
      obtain ⟨rfl, rfl⟩ := h
      exact ⟨b, rfl, hp⟩
  | cons w rest ih =>
    intro a b hp
    have hmemiff : w.kod ∈ a ↔ w.kod ∈ b := hp.mem_iff
    by_cases hmem : w.kod ∈ a
    · have hmem2 : w.kod ∈ b := hmemiff.mp hmem
      constructor
      · intro h
        simp only [market_create_stocks_loop, if_pos hmem] at h
        simp only [market_create_stocks_loop, if_pos hmem2]
        cases hq : normalizeQuantity w.kolichestvo with
        | none => simp [hq]
        | some q =>
          rw [hq] at h
          cases hrec : market_create_stocks_loop rest (a.erase w.kod) wh date with
          | none =>
            have h2 := (ih (a.erase w.kod) (b.erase w.kod) (hp.erase w.kod)).1 hrec
            simp [hq, h2]
          | some p =>
            obtain ⟨ss2, rem2⟩ := p
            rw [hrec] at h
            exact Option.noConfusion h
      · intro ss rem1 h
        simp only [market_create_stocks_loop, if_pos hmem] at h
        cases hq : normalizeQuantity w.kolichestvo with
        | none => rw [hq] at h; exact Option.noConfusion h
        | some q =>
          rw [hq] at h
          cases hrec : market_create_stocks_loop rest (a.erase w.kod) wh date with
          | none => rw [hrec] at h; exact Option.noConfusion h
          | some p =>
            obtain ⟨ss2, rem2⟩ := p
            rw [hrec] at h
            simp only [Option.some.injEq, Prod.mk.injEq] at h
            obtain ⟨rfl, rfl⟩ := h
            obtain ⟨rem3, hrec2, hp3⟩ :=
              (ih (a.erase w.kod) (b.erase w.kod) (hp.erase w.kod)).2 ss2 rem2 hrec
            refine ⟨rem3, ?_, hp3⟩
            simp only [market_create_stocks_loop, if_pos hmem2, hq, hrec2]
    · have hmem2 : w.kod ∉ b := fun hb => hmem (hmemiff.mpr hb)
      constructor
      · intro h
        simp only [market_create_stocks_loop, if_neg hmem] at h
        simp only [market_create_stocks_loop, if_neg hmem2]
        exact (ih a b hp).1 h
      · intro ss rem1 h
        simp only [market_create_stocks_loop, if_neg hmem] at h
        obtain ⟨rem2, h2, hp2⟩ := (ih a b hp).2 ss rem1 h
        refine ⟨rem2, ?_, hp2⟩
        simp only [market_create_stocks_loop, if_neg hmem2]
        exact h2

/-- `create_prices` emits nothing when no vendor row's code is in the
offer-id list. -/
theorem create_prices_eq_nil (ws : List Watch) :
    ∀ ids : List String, (∀ w ∈ ws, w.kod ∉ ids) → create_prices ws ids = [] := by
  induction ws with
  | nil => intro ids _; rfl
  | cons w rest ih =>
    intro ids h
    simp only [create_prices, if_neg (h w (List.mem_cons_self w rest))]
    exact ih ids (fun w2 hw2 => h w2 (List.mem_cons_of_mem w hw2))

/-! ## Batcher lemmas -/

/-- `chunksBy` produces no chunk exactly on the empty list. -/
theorem chunksBy_eq_nil_iff (n : Nat) (l : List α) :
    chunksBy n l = [] ↔ l = [] := by
  cases l with
  | nil => simp [chunksBy]
  | cons x xs => rw [chunksBy]; simp

/-- Concatenating the chunks reproduces the input list. -/
theorem chunksBy_flatten (n : Nat) (l : List α) :
    (chunksBy n l).flatten = l := by
  induction l using chunksBy.induct n with
  | case1 => simp [chunksBy]
  | case2 x xs ih =>
    rw [chunksBy]
    simp only [List.flatten_cons, ih, List.cons_append, List.take_append_drop]

/-- Every chunk except the last has length exactly `n` (for positive `n`). -/
theorem chunksBy_dropLast_length (n : Nat) (hn : 0 < n) (l : List α) :
    ∀ c ∈ (chunksBy n l).dropLast, c.length = n := by
  induction l using chunksBy.induct n with
  | case1 => simp [chunksBy]
  | case2 x xs ih =>
    rw [chunksBy]
    cases hrest : chunksBy n (xs.drop (n - 1)) with
    | nil => simp
    | cons r rs =>
      intro c hc
      rw [List.dropLast_cons₂] at hc
      rcases List.mem_cons.mp hc with h1 | h2
      · subst h1
        have hne : xs.drop (n - 1) ≠ [] := by
          intro h0
          rw [h0] at hrest
          simp [chunksBy] at hrest
        have hlen : n - 1 < xs.length := by
          by_contra hcon
          push_neg at hcon
          exact hne (List.drop_eq_nil_of_le hcon)
        simp only [List.length_cons, List.length_take]
        omega
      · exact ih c (by rw [hrest]; exact h2)

/-- Every chunk is nonempty and at most `n` long (for positive `n`). -/
theorem chunksBy_mem_length (n : Nat) (hn : 0 < n) (l : List α) :
    ∀ c ∈ chunksBy n l, c ≠ [] ∧ c.length ≤ n := by
  induction l using chunksBy.induct n with
  | case1 => simp [chunksBy]
  | case2 x xs ih =>
    rw [chunksBy]
    intro c hc
    rcases List.mem_cons.mp hc with h1 | h2
    · subst h1
      refine ⟨by simp, ?_⟩
      simp only [List.length_cons, List.length_take]
      omega
    · exact ih c h2

/-- The last chunk holds exactly what remains after the full chunks. -/
theorem chunksBy_getLast_length (n : Nat) (hn : 0 < n) :
    ∀ l : List α, l ≠ [] →
      ((chunksBy n l).getLastD []).length
        = l.length - n * ((chunksBy n l).length - 1) := by
  intro l
  induction l using chunksBy.induct n with
  | case1 => intro h; exact absurd rfl h
  | case2 x xs ih =>
    intro _
    rw [chunksBy]
    cases hrest : chunksBy n (xs.drop (n - 1)) with
    | nil =>
      have hdrop : xs.drop (n - 1) = [] := (chunksBy_eq_nil_iff n _).mp hrest
      have hlen : xs.length ≤ n - 1 := List.drop_eq_nil_iff.mp hdrop
      rw [List.getLastD_cons, List.getLastD_nil]
      simp only [List.length_cons, List.length_take, List.length_nil]
      omega
    | cons r rs =>
      have hne : xs.drop (n - 1) ≠ [] := by
        intro h0
        rw [h0] at hrest
        simp [chunksBy] at hrest
      have hxs : n - 1 < xs.length := by
        by_contra hcon
        push_neg at hcon
        exact hne (List.drop_eq_nil_of_le hcon)
      have ihh := ih hne
      rw [hrest] at ihh
      rw [List.getLastD_cons]
      have hgl : (r :: rs).getLastD (x :: xs.take (n - 1)) = (r :: rs).getLastD [] := by
        rw [List.getLastD_cons, List.getLastD_cons]
      rw [hgl, ihh]
      simp only [List.length_drop, List.length_cons, Nat.add_sub_cancel]
      rw [Nat.mul_succ]
      have hm : 0 ≤ n * rs.length := Nat.zero_le _
      generalize n * rs.length = m at hm ⊢
      omega

/-! ## Auxiliary results for the price variant -/

/-- `create_prices` emits exactly one update per vendor row whose code is in
the offer-id list, in vendor order, with no removal from the list. -/
theorem create_prices_map_offer_id (ws : List Watch) (ids : List String) :
    (create_prices ws ids).map SellerPrice.offer_id
      = (ws.filter (fun w => decide (w.kod ∈ ids))).map Watch.kod := by
  induction ws with
  | nil => rfl
  | cons w rest ih =>
    by_cases hmem : w.kod ∈ ids
    · simp [create_prices, List.filter_cons, hmem, ih]
    · simp [create_prices, List.filter_cons, hmem, ih]

/-- `create_prices` only looks at membership in the offer-id list, so its
output is unchanged under reordering of that list. -/
theorem create_prices_perm_stable (ws : List Watch) :
    ∀ ids1 ids2 : List String, ids1.Perm ids2 →
      create_prices ws ids1 = create_prices ws ids2 := by
  induction ws with
  | nil => intro a b _; rfl
  | cons w rest ih =>
    intro a b hp
    by_cases hmem : w.kod ∈ a
    · simp only [create_prices, if_pos hmem, if_pos (hp.mem_iff.mp hmem)]
      rw [ih a b hp]
    · simp only [create_prices, if_neg hmem,
        if_neg (fun hb => hmem (hp.mem_iff.mpr hb))]
      exact ih a b hp

/-- Order-independence of `src/market.py` `create_prices`. -/
theorem market_create_prices_perm_stable (ws : List Watch) :
    ∀ ids1 ids2 : List String, ids1.Perm ids2 →
      market_create_prices ws ids1 = market_create_prices ws ids2 := by
  induction ws with
  | nil => intro a b _; rfl
  | cons w rest ih =>
    intro a b hp
    by_cases hmem : w.kod ∈ a
    · simp only [market_create_prices, if_pos hmem, if_pos (hp.mem_iff.mp hmem)]
      rw [ih a b hp]
    · simp only [market_create_prices, if_neg hmem,
        if_neg (fun hb => hmem (hp.mem_iff.mpr hb))]
      exact ih a b hp

/-! ## Concrete sample data used by witnesses and counterexamples -/

/-- The apostrophe character, written by code point to keep it out of
string literals. -/
def apostrophe : Char := Char.ofNat 39

/-- The spec's example price string `5ʼ990.00 руб.` (with an ASCII
apostrophe as thousands separator). -/
def rubPriceSample : String :=
  "5" ++ String.singleton apostrophe ++ "990.00 руб."

/-- The spec's ambiguous price string `5ʼ990 00`: no decimal point, two
digit groups. -/
def twoGroupPriceSample : String :=
  "5" ++ String.singleton apostrophe ++ "990 00"

/-- Vendor row with sentinel quantity ">10". -/
def watchA : Watch := ⟨"A", ">10", "100.50"⟩

/-- Vendor row with sentinel quantity "1". -/
def watchB : Watch := ⟨"B", "1", "200.00"⟩

/-- Vendor row used twice to exercise duplicated vendor codes. -/
def dupWatch : Watch := ⟨"A", "1", "100.50"⟩

/-- The spec's end-to-end sample vendor feed. -/
def wsSample : List Watch := [watchA, watchB]

/-- The spec's end-to-end sample offer-id set. -/
def idsSample : List String := ["A", "B", "C"]

/-! ## Claim theorems -/

/-- C1: for every id in the input offer-id set (modelled, per the spec's
data model, as a duplicate-free list), `create_stocks` — on both platforms
— produces exactly one stock update per id, no update references an id
outside the set, every update is either justified by a vendor row with the
normalized quantity or is a fallback with quantity 0, and the produced ids
are a permutation of (i.e. partition) the offer-id set at fetch time. -/
theorem c1_reconciler_coverage
    (ws : List Watch) (ids : List String) (hnd : ids.Nodup)
    (stocks : List Stock) (rem : List String)
    (h : create_stocks ws ids = some (stocks, rem))
    (wh date : String) (mstocks : List MarketStock) (mrem : List String)
    (hm : market_create_stocks ws ids wh date = some (mstocks, mrem)) :
    (stocks.map Stock.offer_id).Perm ids ∧
    (∀ i ∈ ids, (stocks.map Stock.offer_id).count i = 1) ∧
    (∀ s ∈ stocks, s.offer_id ∈ ids) ∧
    (∀ s ∈ stocks,
      (∃ w ∈ ws, w.kod = s.offer_id ∧
        normalizeQuantity w.kolichestvo = some s.stock) ∨ s.stock = 0) ∧
    (mstocks.map MarketStock.sku).Perm ids ∧
    (∀ i ∈ ids, (mstocks.map MarketStock.sku).count i = 1) ∧
    (∀ s ∈ mstocks, s.sku ∈ ids) ∧
    (∀ s ∈ mstocks,
      (∃ w ∈ ws, w.kod = s.sku ∧ ∃ q,
        normalizeQuantity w.kolichestvo = some q ∧
          s.items = [⟨q, "FIT", date⟩]) ∨
      s.items = [⟨0, "FIT", date⟩]) := by
  cases hloop : create_stocks_loop ws ids with
  | none => rw [create_stocks, hloop] at h; exact Option.noConfusion h
  | some p =>
    obtain ⟨ss, rem0⟩ := p
    rw [create_stocks, hloop] at h
    simp only [Option.map_some', Option.some.injEq, Prod.mk.injEq] at h
    obtain ⟨rfl, rfl⟩ := h
    obtain ⟨hperm, hmatch, hrem⟩ := create_stocks_loop_spec ws ids hnd ss rem0 hloop
    have hmap : (ss ++ rem0.map (fun i => (⟨i, 0⟩ : Stock))).map Stock.offer_id
        = ss.map Stock.offer_id ++ rem0 := by
      simp [List.map_map, Function.comp_def]
    cases hloopm : market_create_stocks_loop ws ids wh date with
    | none => rw [market_create_stocks, hloopm] at hm; exact Option.noConfusion hm
    | some pm =>
      obtain ⟨ms, mrem0⟩ := pm
      rw [market_create_stocks, hloopm] at hm
      simp only [Option.map_some', Option.some.injEq, Prod.mk.injEq] at hm
      obtain ⟨rfl, rfl⟩ := hm
      obtain ⟨hpermm, hmatchm, hremm⟩ :=
        market_create_stocks_loop_spec ws wh date ids hnd ms mrem0 hloopm
      have hmapm : (ms ++ mrem0.map
            (fun i => (⟨i, wh, [⟨0, "FIT", date⟩]⟩ : MarketStock))).map MarketStock.sku
          = ms.map MarketStock.sku ++ mrem0 := by
        simp [List.map_map, Function.comp_def]
      refine ⟨hmap ▸ hperm, ?_, ?_, ?_, hmapm ▸ hpermm, ?_, ?_, ?_⟩
      · intro i hi
        rw [hmap, hperm.count_eq i]
        exact List.count_eq_one_of_mem hnd hi
      · intro s hs
        rcases List.mem_append.mp hs with hleft | hright
        · exact hperm.mem_iff.mp
            (List.mem_append_left _ (List.mem_map_of_mem Stock.offer_id hleft))
        · obtain ⟨i, hi, rfl⟩ := List.mem_map.mp hright
          exact hperm.mem_iff.mp (List.mem_append_right _ hi)
      · intro s hs
        rcases List.mem_append.mp hs with hleft | hright
        · exact Or.inl (hmatch s hleft)
        · obtain ⟨i, hi, rfl⟩ := List.mem_map.mp hright
          exact Or.inr rfl
      · intro i hi
        rw [hmapm, hpermm.count_eq i]
        exact List.count_eq_one_of_mem hnd hi
      · intro s hs
        rcases List.mem_append.mp hs with hleft | hright
        · exact hpermm.mem_iff.mp
            (List.mem_append_left _ (List.mem_map_of_mem MarketStock.sku hleft))
        · obtain ⟨i, hi, rfl⟩ := List.mem_map.mp hright
          exact hpermm.mem_iff.mp (List.mem_append_right _ hi)
      · intro s hs
        rcases List.mem_append.mp hs with hleft | hright
        · obtain ⟨w, hw, hkod, q, hq, hs2⟩ := hmatchm s hleft
          exact Or.inl ⟨w, hw, hkod, q, hq, by rw [hs2]⟩
        · obtain ⟨i, hi, rfl⟩ := List.mem_map.mp hright
          exact Or.inr rfl

/-- Witness for C1 on the spec's end-to-end sample. -/
theorem c1_reconciler_coverage_witness :
    idsSample.Nodup ∧
    ((([⟨"A", 100⟩, ⟨"B", 0⟩, ⟨"C", 0⟩] : List Stock).map Stock.offer_id).Perm
      idsSample) :=
  ⟨by decide,
    (c1_reconciler_coverage wsSample idsSample (by decide)
      [⟨"A", 100⟩, ⟨"B", 0⟩, ⟨"C", 0⟩] ["C"] (by decide) "W" "D"
      [⟨"A", "W", [⟨100, "FIT", "D"⟩]⟩, ⟨"B", "W", [⟨0, "FIT", "D"⟩]⟩,
        ⟨"C", "W", [⟨0, "FIT", "D"⟩]⟩] ["C"] (by decide)).1⟩

/-- C2 (counterexample): in the price variant a matched id is NOT removed
from the working offer-id set — with the same vendor code twice in the
records, both `create_prices` implementations emit two updates for the one
id "A", so "at most one update per id" fails for the price variant. -/
theorem c2_price_removal_counterexample :
    (create_prices [dupWatch, dupWatch] ["A"]).map SellerPrice.offer_id
      = ["A", "A"] ∧
    ¬ ((create_prices [dupWatch, dupWatch] ["A"]).map SellerPrice.offer_id).Nodup ∧
    market_create_prices [dupWatch, dupWatch] ["A"]
      = some [⟨"A", ⟨100, "RUR"⟩⟩, ⟨"A", ⟨100, "RUR"⟩⟩] := by
  refine ⟨by decide, by decide, by decide⟩

/-- C2 (amended): in the stock variant of both platforms a matched id is
removed from the working set, so the matched updates carry pairwise
distinct ids (at most one update per id) and a matched id is no longer in
the remaining working list; in the price variant no removal happens — one
update is emitted per vendor record whose code is in the set, in vendor
order, so a duplicated code yields one update per duplicate. -/
theorem c2_removal_on_match
    (ws : List Watch) (ids : List String) (hnd : ids.Nodup) :
    (∀ ss rem, create_stocks_loop ws ids = some (ss, rem) →
      (ss.map Stock.offer_id).Nodup ∧ ∀ s ∈ ss, s.offer_id ∉ rem) ∧
    (∀ wh date ss rem,
      market_create_stocks_loop ws ids wh date = some (ss, rem) →
      (ss.map MarketStock.sku).Nodup ∧ ∀ s ∈ ss, s.sku ∉ rem) ∧
    (create_prices ws ids).map SellerPrice.offer_id
      = (ws.filter (fun w => decide (w.kod ∈ ids))).map Watch.kod := by
  refine ⟨?_, ?_, create_prices_map_offer_id ws ids⟩
  · intro ss rem h
    obtain ⟨hperm, _, _⟩ := create_stocks_loop_spec ws ids hnd ss rem h
    have hall : (ss.map Stock.offer_id ++ rem).Nodup := hperm.symm.nodup hnd
    refine ⟨hall.of_append_left, ?_⟩
    intro s hs
    exact List.disjoint_of_nodup_append hall
      (List.mem_map_of_mem Stock.offer_id hs)
  · intro wh date ss rem h
    obtain ⟨hperm, _, _⟩ := market_create_stocks_loop_spec ws wh date ids hnd ss rem h
    have hall : (ss.map MarketStock.sku ++ rem).Nodup := hperm.symm.nodup hnd
    refine ⟨hall.of_append_left, ?_⟩
    intro s hs
    exact List.disjoint_of_nodup_append hall
      (List.mem_map_of_mem MarketStock.sku hs)

/-- Witness for C2 (amended) on a duplicated vendor code. -/
theorem c2_removal_on_match_witness :
    (["A", "B"] : List String).Nodup ∧
    (create_prices [dupWatch, dupWatch] ["A", "B"]).map SellerPrice.offer_id
      = ([dupWatch, dupWatch].filter
          (fun w => decide (w.kod ∈ (["A", "B"] : List String)))).map Watch.kod :=
  ⟨by decide, (c2_removal_on_match [dupWatch, dupWatch] ["A", "B"] (by decide)).2.2⟩

/-- C3: quantity normalization — string form ">10" yields 100, else "1"
yields 0, else the token is parsed as a Python integer; concretely
`normalize "7" = 7` and `normalize "abc"` fails (`ValueError`, the spec's
`InvalidQuantity`). -/
theorem c3_quantity_normalizer :
    (∀ s : String, s = ">10" → normalizeQuantity s = some 100) ∧
    (∀ s : String, s ≠ ">10" → s = "1" → normalizeQuantity s = some 0) ∧
    (∀ s : String, s ≠ ">10" → s ≠ "1" → normalizeQuantity s = pyIntParse s) ∧
    normalizeQuantity "7" = some 7 ∧
    normalizeQuantity "abc" = none := by
  refine ⟨?_, ?_, ?_, by decide, by decide⟩
  · intro s h
    subst h
    decide
  · intro s _ h2
    subst h2
    decide
  · intro s h1 h2
    rw [normalizeQuantity, if_neg h1, if_neg h2]

/-- Witness for C3 at the three rule branches. -/
theorem c3_quantity_normalizer_witness :
    normalizeQuantity ">10" = some 100 ∧
    normalizeQuantity "1" = some 0 ∧
    normalizeQuantity "15" = pyIntParse "15" :=
  ⟨c3_quantity_normalizer.1 ">10" rfl,
    c3_quantity_normalizer.2.1 "1" (by decide) rfl,
    c3_quantity_normalizer.2.2.1 "15" (by decide) (by decide)⟩

/-- `splitDot` never returns the empty list of groups. -/
theorem splitDot_ne_nil (l : List Char) : splitDot l ≠ [] := by
  cases l with
  | nil => simp [splitDot]
  | cons c rest =>
    by_cases hc : c = '.'
    · simp [splitDot, hc]
    · simp only [splitDot, if_neg hc]
      cases splitDot rest with
      | nil => simp
      | cons g gs => simp

/-- The first group of `splitDot` is the prefix before the first dot. -/
theorem splitDot_headD (l : List Char) :
    (splitDot l).headD [] = l.takeWhile (fun c => decide (c ≠ '.')) := by
  induction l with
  | nil => rfl
  | cons c rest ih =>
    by_cases hc : c = '.'
    · subst hc
      simp [splitDot, List.takeWhile_cons]
    · cases hgg : splitDot rest with
      | nil => exact absurd hgg (splitDot_ne_nil rest)
      | cons g gs =>
        rw [hgg] at ih
        simp only [List.headD_cons] at ih
        simp [splitDot, if_neg hc, hgg, List.takeWhile_cons, hc, ih]

/-- C4: for every raw price string, `price_conversion` equals the spec's
algorithm (split at the first decimal point, keep the integer part, drop
every non-digit character), and on the spec's examples it yields 5990 for
`5ʼ990.00 руб.` and 100 for "100.50". -/
theorem c4_price_normalizer :
    (∀ s : String, price_conversion s = specPriceNormalize s) ∧
    price_conversion rubPriceSample = "5990" ∧
    pyIntParse (price_conversion rubPriceSample) = some 5990 ∧
    price_conversion "100.50" = "100" ∧
    pyIntParse (price_conversion "100.50") = some 100 := by
  refine ⟨?_, by decide, by decide, by decide, by decide⟩
  intro s
  rw [price_conversion, specPriceNormalize, splitDot_headD]

/-- C5 (counterexample): on the dotless two-group string `5ʼ990 00` the
normalizer concatenates ALL SIX digits and yields 599000, not 59900. -/
theorem c5_two_group_counterexample :
    price_conversion twoGroupPriceSample = "599000" ∧
    price_conversion twoGroupPriceSample ≠ "59900" ∧
    pyIntParse (price_conversion twoGroupPriceSample) ≠ some 59900 := by
  refine ⟨by decide, by decide, by decide⟩

/-- C5 (amended): with no decimal point all digits of `5ʼ990 00` are
concatenated and the price normalizer yields 599000 (as the source's own
docstring states). -/
theorem c5_two_group_amended :
    price_conversion twoGroupPriceSample
      = String.mk (twoGroupPriceSample.toList.filter Char.isDigit) ∧
    price_conversion twoGroupPriceSample = "599000" ∧
    pyIntParse (price_conversion twoGroupPriceSample) = some 599000 := by
  refine ⟨by decide, by decide, by decide⟩

/-- C6: reconciliation is deterministic and order-independent — two runs of
the stock reconciliation on the same vendor rows and the same offer-id set
(the same list up to reordering, since the spec's `OfferIdSet` is a set)
produce outputs that are equal as sets (permutations), on both platforms;
the price reconciliations are literally equal. -/
theorem c6_reconciler_order_independent
    (ws : List Watch) (ids1 ids2 : List String) (hp : ids1.Perm ids2)
    (st1 st2 : List Stock) (r1 r2 : List String)
    (h1 : create_stocks ws ids1 = some (st1, r1))
    (h2 : create_stocks ws ids2 = some (st2, r2))
    (wh date : String) (m1 m2 : List MarketStock) (q1 q2 : List String)
    (hm1 : market_create_stocks ws ids1 wh date = some (m1, q1))
    (hm2 : market_create_stocks ws ids2 wh date = some (m2, q2)) :
    st1.Perm st2 ∧ m1.Perm m2 ∧
    create_prices ws ids1 = create_prices ws ids2 ∧
    market_create_prices ws ids1 = market_create_prices ws ids2 := by
  refine ⟨?_, ?_, create_prices_perm_stable ws ids1 ids2 hp,
    market_create_prices_perm_stable ws ids1 ids2 hp⟩
  · cases hl1 : create_stocks_loop ws ids1 with
    | none => rw [create_stocks, hl1] at h1; exact Option.noConfusion h1
    | some p1 =>
      obtain ⟨ss1, rem1⟩ := p1
      rw [create_stocks, hl1] at h1
      simp only [Option.map_some', Option.some.injEq, Prod.mk.injEq] at h1
      obtain ⟨rfl, rfl⟩ := h1
      obtain ⟨rem2x, hl2x, hpr⟩ :=
        (create_stocks_loop_perm_stable ws ids1 ids2 hp).2 ss1 rem1 hl1
      rw [create_stocks, hl2x] at h2
      simp only [Option.map_some', Option.some.injEq, Prod.mk.injEq] at h2
      obtain ⟨rfl, rfl⟩ := h2
      exact List.Perm.append_left ss1 (hpr.map _)
  · cases hl1 : market_create_stocks_loop ws ids1 wh date with
    | none => rw [market_create_stocks, hl1] at hm1; exact Option.noConfusion hm1
    | some p1 =>
      obtain ⟨ss1, rem1⟩ := p1
      rw [market_create_stocks, hl1] at hm1
      simp only [Option.map_some', Option.some.injEq, Prod.mk.injEq] at hm1
      obtain ⟨rfl, rfl⟩ := hm1
      obtain ⟨rem2x, hl2x, hpr⟩ :=
        (market_create_stocks_loop_perm_stable ws wh date ids1 ids2 hp).2 ss1 rem1 hl1
      rw [market_create_stocks, hl2x] at hm2
      simp only [Option.map_some', Option.some.injEq, Prod.mk.injEq] at hm2
      obtain ⟨rfl, rfl⟩ := hm2
      exact List.Perm.append_left ss1 (hpr.map _)

/-- Witness for C6 on a two-id set given in both orders. -/
theorem c6_reconciler_order_independent_witness :
    (["A", "B"] : List String).Perm ["B", "A"] ∧
    ([⟨"A", 100⟩, ⟨"B", 0⟩] : List Stock).Perm [⟨"A", 100⟩, ⟨"B", 0⟩] :=
  ⟨by decide,
    (c6_reconciler_order_independent [watchA] ["A", "B"] ["B", "A"] (by decide)
      [⟨"A", 100⟩, ⟨"B", 0⟩] [⟨"A", 100⟩, ⟨"B", 0⟩] ["B"] ["B"]
      (by decide) (by decide) "W" "D"
      [⟨"A", "W", [⟨100, "FIT", "D"⟩]⟩, ⟨"B", "W", [⟨0, "FIT", "D"⟩]⟩]
      [⟨"A", "W", [⟨100, "FIT", "D"⟩]⟩, ⟨"B", "W", [⟨0, "FIT", "D"⟩]⟩]
      ["B"] ["B"] (by decide) (by decide)).1⟩

/-- C7 (code bug): `src/market.py` `main` invokes the `async def`
`upload_prices` without `await` (lines 340 and 349), so the coroutine body
never runs: a run that completes pushes its stock batches and then reaches
the end with NO price reconciliation and NO price push, even though prices
for the fetched offer ids exist (`create_prices` would be nonempty). -/
theorem c7_market_main_silent_price_drop :
    market_main_trace [⟨"A", "4", "100.50"⟩] ["A"] ["A"] "W1" "W2" "D"
      = some [Ev.fetchOfferIds, Ev.reconcileStock,
          Ev.mPushStock [⟨"A", "W1", [⟨4, "FIT", "D"⟩]⟩],
          Ev.fetchOfferIds, Ev.reconcileStock,
          Ev.mPushStock [⟨"A", "W2", [⟨4, "FIT", "D"⟩]⟩],
          Ev.done] ∧
    ([Ev.fetchOfferIds, Ev.reconcileStock,
        Ev.mPushStock [⟨"A", "W1", [⟨4, "FIT", "D"⟩]⟩],
        Ev.fetchOfferIds, Ev.reconcileStock,
        Ev.mPushStock [⟨"A", "W2", [⟨4, "FIT", "D"⟩]⟩],
        Ev.done].countP Ev.isPushPrice = 0) ∧
    market_create_prices [⟨"A", "4", "100.50"⟩] ["A"]
      = some [⟨"A", ⟨100, "RUR"⟩⟩] := by
  refine ⟨?_, by decide, by decide⟩
  have h1 : market_create_stocks [⟨"A", "4", "100.50"⟩] ["A"] "W1" "D"
      = some ([⟨"A", "W1", [⟨4, "FIT", "D"⟩]⟩], []) := by decide
  have h2 : market_create_stocks [⟨"A", "4", "100.50"⟩] ["A"] "W2" "D"
      = some ([⟨"A", "W2", [⟨4, "FIT", "D"⟩]⟩], []) := by decide
  simp [market_main_trace, h1, h2, divide, chunksBy]

/-- C8: for a positive batch size `n`, the chunks produced by `divide`
concatenate back to the input, every chunk but the last has length exactly
`n`, every chunk is nonempty of length at most `n`, and the last chunk
holds exactly the remainder left after the full chunks. -/
theorem c8_batcher_correct (S : List α) (n : Int) (hn : 0 < n)
    (cs : List (List α)) (h : divide S n = some cs) :
    cs.flatten = S ∧
    (∀ c ∈ cs.dropLast, c.length = n.toNat) ∧
    (∀ c ∈ cs, c ≠ [] ∧ c.length ≤ n.toNat) ∧
    (S ≠ [] →
      (cs.getLastD []).length = S.length - n.toNat * (cs.length - 1)) := by
  have hne : n ≠ 0 := by omega
  have hnlt : ¬ n < 0 := by omega
  rw [divide, if_neg hne, if_neg hnlt] at h
  simp only [Option.some.injEq] at h
  subst h
  have hpos : 0 < n.toNat := by omega
  exact ⟨chunksBy_flatten _ _, chunksBy_dropLast_length _ hpos _,
    chunksBy_mem_length _ hpos _, chunksBy_getLast_length _ hpos _⟩

/-- Witness for C8 at `S = [1,2,3,4,5]`, `n = 2`. -/
theorem c8_batcher_correct_witness :
    (0 : Int) < 2 ∧
    ([[1, 2], [3, 4], [5]] : List (List Nat)).flatten = [1, 2, 3, 4, 5] :=
  ⟨by decide,
    (c8_batcher_correct [1, 2, 3, 4, 5] 2 (by decide) [[1, 2], [3, 4], [5]]
      (by simp [divide, chunksBy])).1⟩

/-- C9 (counterexample): with the negative batch size `-1` the batcher does
NOT fail — `range(0, len(lst), -1)` is simply empty, so the generator
successfully yields no chunk at all. -/
theorem c9_negative_step_counterexample :
    divide ([1, 2, 3] : List Nat) (-1) = some [] ∧
    divide ([1, 2, 3] : List Nat) (-1) ≠ none := by
  refine ⟨by decide, by decide⟩

/-- C9 (amended): `divide S 0` fails (`range` raises `ValueError` on a zero
step), while for every negative `n` the batcher silently produces no chunks
instead of failing. -/
theorem c9_batcher_zero_fails (S : List α) :
    divide S 0 = none ∧ ∀ n : Int, n < 0 → divide S n = some [] := by
  constructor
  · rw [divide, if_pos rfl]
  · intro n hn
    rw [divide, if_neg (by omega : n ≠ 0), if_pos hn]

/-- Witness for C9 (amended) at `S = [1,2,3]`, `n = -1`. -/
theorem c9_batcher_zero_fails_witness :
    divide ([1, 2, 3] : List Nat) 0 = none ∧ (-1 : Int) < 0 ∧
    divide ([1, 2, 3] : List Nat) (-1) = some [] :=
  ⟨(c9_batcher_zero_fails [1, 2, 3]).1, by decide,
    (c9_batcher_zero_fails [1, 2, 3]).2 (-1) (by decide)⟩

/-- C10: `seller.main` passes the offer-id list mutated by `create_stocks`
on to `create_prices`; on a duplicate-free offer-id set the remaining
list holds only ids matching no vendor record, so `create_prices` returns
the empty list and the run pushes no price batch at all. -/
theorem c10_seller_main_prices_empty
    (ws : List Watch) (ids : List String) (hnd : ids.Nodup)
    (stocks : List Stock) (rem : List String)
    (h : create_stocks ws ids = some (stocks, rem)) :
    create_prices ws rem = [] ∧
    ∀ tr, seller_main_trace ws ids = some tr →
      tr.countP Ev.isPushPrice = 0 := by
  cases hloop : create_stocks_loop ws ids with
  | none => rw [create_stocks, hloop] at h; exact Option.noConfusion h
  | some p =>
    obtain ⟨ss, rem0⟩ := p
    rw [create_stocks, hloop] at h
    simp only [Option.map_some', Option.some.injEq, Prod.mk.injEq] at h
    obtain ⟨rfl, rfl⟩ := h
    obtain ⟨hperm, hmatch, hrem⟩ := create_stocks_loop_spec ws ids hnd ss rem0 hloop
    have hnil : create_prices ws rem0 = [] :=
      create_prices_eq_nil ws rem0 (fun w hw hmem => hrem _ hmem w hw rfl)
    refine ⟨hnil, ?_⟩
    intro tr htr
    have hcs : create_stocks ws ids
        = some (ss ++ rem0.map (fun i => (⟨i, 0⟩ : Stock)), rem0) := by
      rw [create_stocks, hloop]
      rfl
    have hd1 : divide (ss ++ rem0.map (fun i => (⟨i, 0⟩ : Stock))) 100
        = some (chunksBy 100 (ss ++ rem0.map (fun i => (⟨i, 0⟩ : Stock)))) := by
      rw [divide, if_neg (by omega), if_neg (by omega)]
      rfl
    have hd2 : divide ([] : List SellerPrice) 900
        = some ([] : List (List SellerPrice)) := by
      rw [divide, if_neg (by omega), if_neg (by omega)]
      simp [chunksBy]
    simp only [seller_main_trace, hcs, hd1, hnil, hd2,
      Option.some.injEq] at htr
    subst htr
    rw [List.countP_eq_zero]
    intro e he
    cases e with
    | pushPrice b => simp at he
    | mPushPrice b => simp at he
    | fetchOfferIds => simp [Ev.isPushPrice]
    | reconcileStock => simp [Ev.isPushPrice]
    | pushStock b => simp [Ev.isPushPrice]
    | mPushStock b => simp [Ev.isPushPrice]
    | reconcilePrice => simp [Ev.isPushPrice]
    | done => simp [Ev.isPushPrice]

/-- Witness for C10: after the stock pass only the unmatched id "B"
remains, and the price pass on it is empty. -/
theorem c10_seller_main_prices_empty_witness :
    (["A", "B"] : List String).Nodup ∧ create_prices [watchA] ["B"] = [] :=
  ⟨by decide,
    (c10_seller_main_prices_empty [watchA] ["A", "B"] (by decide)
      [⟨"A", 100⟩, ⟨"B", 0⟩] ["B"] (by decide)).1⟩

end SellerApis
